import Mathlib

/-
Shallow embedding of the FIFO lot-accounting calculator of the
investment-tracker repository (the `TransactionCalculator` class of the
transaction types module, together with its `Transaction`, `Position` and
validation-result record shapes).

Modelling conventions:
* JavaScript numbers are embedded as exact rationals (ℚ); `Math.round` is
  `fun x => ⌊x + 1/2⌋` (round half towards +∞), matching JS semantics.
* A transaction's `date` string enters the code only through
  `new Date(d).getTime()`, an integer timestamp used for sorting; it is
  embedded as that timestamp (`ℤ`).
* `Array.prototype.sort` (stable since ES2019) with the comparator
  `(a, b) => dateOf a - dateOf b` is embedded as Mathlib's stable
  `List.insertionSort` on the non-strict date order.
* Object identity and in-place mutation: `calculatePosition` receives an
  array of references into the caller's storage and mutates the `quantity`
  field of BUY objects during the FIFO walk (`oldestBuy.quantity -= ...`
  writes through the shallow copy `[...transactions]` and through
  `Array.prototype.filter`, both of which share the underlying objects).
  The heap is embedded as a `Store := List Transaction` (the caller's
  array; an object's identity is its index), and every function that can
  mutate returns the updated store next to its value result.  Reads of a
  transaction's fields are captured when the element is first read from
  the store: this is faithful because within one invocation the only
  objects mutated are BUY objects already consumed into the FIFO queue,
  whose current quantities the queue (`Lot.quantity`) tracks exactly, and
  the entry points always pass lists of distinct indices
  (`List.range`, and `filter` of a range).
* `throw new Error(msg)` is embedded as `Except.error` carrying the data
  interpolated into the message.
-/

namespace InvestmentTracker

/-- The `'BUY' | 'SELL'` union of the `Transaction.type` field. -/
inductive TxType where
  | BUY
  | SELL
deriving DecidableEq, Repr

/-- The `Transaction` interface: `date` is embedded as the integer
timestamp `new Date(date).getTime()` delivers to the sort comparator. -/
structure Transaction where
  id : String
  symbol : String
  type : TxType
  quantity : ℚ
  pricePerShare : ℚ
  date : ℤ
  totalAmount : ℚ
  fees : Option ℚ := none
  notes : Option String := none
deriving DecidableEq, Repr

instance : Inhabited Transaction :=
  ⟨{ id := "", symbol := "", type := TxType.BUY, quantity := 0,
     pricePerShare := 0, date := 0, totalAmount := 0 }⟩

/-- The caller's transaction array: object identity is the index. -/
abbrev Store := List Transaction

/-- The `Position` interface.  `calculatePosition` never sets
`unrealizedGainLoss` / `currentValue`, embedded as `none`. -/
structure Position where
  symbol : String
  totalShares : ℚ
  averageCostPerShare : ℚ
  totalInvested : ℚ
  realizedGainLoss : ℚ
  unrealizedGainLoss : Option ℚ := none
  currentValue : Option ℚ := none
  transactions : List Transaction
  lastUpdated : String
deriving DecidableEq, Repr

/-- The data interpolated into the `Error` message
`Cannot sell ${q} shares of ${symbol}. Only ${totalShares} shares available.`
thrown by `calculatePosition`. -/
inductive CalcError where
  | insufficientShares (symbol : String) (requested : ℚ) (available : ℚ)
deriving DecidableEq, Repr

/-- An entry of the engine's `buyTransactions` FIFO queue.  In the source
this is a reference to a BUY transaction object; the embedding records the
object's identity (`idx`) together with the two fields the FIFO walk
reads, `quantity` tracking the object's current (mutated) value. -/
structure Lot where
  idx : Nat
  quantity : ℚ
  pricePerShare : ℚ
deriving DecidableEq, Repr

/-- The local accumulator variables of `calculatePosition`, plus the
store that its mutations write through to. -/
structure CalcState where
  totalShares : ℚ
  totalInvested : ℚ
  realizedGainLoss : ℚ
  buyQueue : List Lot
  store : Store
deriving Repr

/-- Write `quantity := q` into the object at index `i` of the store
(the effect of `oldestBuy.quantity -= ...` on the caller's array). -/
def storeSetQty (store : Store) (i : Nat) (q : ℚ) : Store :=
  store.set i { store.getD i default with quantity := q }

/-- The inner `while (sharesToSell > 0 && buyTransactions.length > 0)`
FIFO walk of `calculatePosition`, returning the accumulated
`costBasisOfSoldShares`, the remaining queue, and the mutated store.

In the branch where the head lot is only partially consumed
(`lot.quantity - take ≠ 0`), `take = min sharesToSell lot.quantity`
forces `take = sharesToSell`, so the source loop's next
`sharesToSell > 0` test fails and the loop exits; the embedding returns
directly there with the partially consumed lot left at the queue head,
exactly the state in which the source loop terminates. -/
def fifoLoop : ℚ → ℚ → List Lot → Store → ℚ × List Lot × Store
  | _, costBasis, [], store => (costBasis, [], store)
  | sharesToSell, costBasis, lot :: rest, store =>
    if sharesToSell ≤ 0 then (costBasis, lot :: rest, store)
    else
      let take := min sharesToSell lot.quantity
      let costBasis' := costBasis + take * lot.pricePerShare
      let store' := storeSetQty store lot.idx (lot.quantity - take)
      if lot.quantity - take = 0 then
        fifoLoop (sharesToSell - take) costBasis' rest store'
      else
        (costBasis', { lot with quantity := lot.quantity - take } :: rest, store')

/-- One iteration of the `for (const transaction of sortedTransactions)`
loop body of `calculatePosition`. -/
def processTransaction (symbol : String) (st : CalcState) (idx : Nat)
    (t : Transaction) : Except CalcError CalcState :=
  match t.type with
  | TxType.BUY =>
    Except.ok { st with
      totalShares := st.totalShares + t.quantity,
      totalInvested := st.totalInvested + t.totalAmount,
      buyQueue := st.buyQueue ++ [⟨idx, t.quantity, t.pricePerShare⟩] }
  | TxType.SELL =>
    if st.totalShares < t.quantity then
      Except.error (CalcError.insufficientShares symbol t.quantity st.totalShares)
    else
      let r := fifoLoop t.quantity 0 st.buyQueue st.store
      Except.ok
        { totalShares := st.totalShares - t.quantity,
          totalInvested := st.totalInvested - r.1,
          realizedGainLoss := st.realizedGainLoss + (t.totalAmount - r.1),
          buyQueue := r.2.1,
          store := r.2.2 }

/-- The whole `for ... of sortedTransactions` loop.  On a throw it stops
and reports the error together with the state (store) at that moment. -/
def processAll (symbol : String) : CalcState → List (Nat × Transaction) →
    Option CalcError × CalcState
  | st, [] => (none, st)
  | st, (i, t) :: rest =>
    match processTransaction symbol st i t with
    | Except.ok st' => processAll symbol st' rest
    | Except.error e => (some e, st)

/-- The sort comparator `(a, b) => new Date(a.date).getTime() - new Date(b.date).getTime()`. -/
def dateLe (a b : Nat × Transaction) : Prop :=
  a.2.date ≤ b.2.date

instance : DecidableRel dateLe := fun a b =>
  inferInstanceAs (Decidable (a.2.date ≤ b.2.date))

/-- The stable ascending-by-date sort `[...transactions].sort(...)`. -/
def sortByDate (l : List (Nat × Transaction)) : List (Nat × Transaction) :=
  List.insertionSort dateLe l

/-- The date order on bare transaction values. -/
def dateLeT (a b : Transaction) : Prop :=
  a.date ≤ b.date

instance : DecidableRel dateLeT := fun a b =>
  inferInstanceAs (Decidable (a.date ≤ b.date))

/-- The stable date sort on bare transaction values; the identity
decoration of `sortByDate` projects onto it. -/
def sortTx (l : List Transaction) : List Transaction :=
  List.insertionSort dateLeT l

/-- Initial values of the accumulator variables of `calculatePosition`. -/
def initState (store : Store) : CalcState :=
  { totalShares := 0, totalInvested := 0, realizedGainLoss := 0,
    buyQueue := [], store := store }

/-- The `averageCostPerShare` computation
`totalShares > 0 ? totalInvested / totalShares : 0`. -/
def avgState (st : CalcState) : ℚ :=
  if 0 < st.totalShares then st.totalInvested / st.totalShares else 0

/-- `TransactionCalculator.calculatePosition`, generalised over the
identities of the argument array's elements: `store` is the caller's
heap and `idxs` the indices the argument array holds (the direct call
passes the whole array; `validateSellTransaction` passes a `filter`ed
sublist of references into the same heap).  Returns the JS result
(`null` for an empty list, a thrown error, or a `Position`) together
with the heap as the call leaves it. -/
def calculatePositionAux (now : String) (store : Store) (idxs : List Nat) :
    Except CalcError (Option Position) × Store :=
  match idxs with
  | [] => (Except.ok none, store)
  | i0 :: _ =>
    let symbol := (store.getD i0 default).symbol
    let txns := idxs.map fun i => (i, store.getD i default)
    let sorted := sortByDate txns
    match processAll symbol (initState store) sorted with
    | (some e, st) => (Except.error e, st.store)
    | (none, st) =>
      (Except.ok (some
        { symbol := symbol,
          totalShares := st.totalShares,
          averageCostPerShare := avgState st,
          totalInvested := st.totalInvested,
          realizedGainLoss := st.realizedGainLoss,
          transactions := idxs.map fun i => st.store.getD i default,
          lastUpdated := now }), st.store)

/-- `TransactionCalculator.calculatePosition` called on the caller's
whole array, as in `calculatePosition(transactions)`.  `now` is the
`new Date().toISOString()` timestamp stamped into `lastUpdated`. -/
def calculatePosition (now : String) (transactions : List Transaction) :
    Except CalcError (Option Position) × Store :=
  calculatePositionAux now transactions (List.range transactions.length)

/-- JavaScript `Math.round`: round half towards positive infinity. -/
def jsRound (x : ℚ) : ℚ :=
  (⌊x + 1 / 2⌋ : ℤ)

/-- `Math.round(x * 100000) / 100000`: round to 5 decimal places. -/
def jsRound5 (x : ℚ) : ℚ :=
  jsRound (x * 100000) / 100000

/-- The `{ valid, message, availableShares }` result shape of
`validateSellTransaction`. -/
structure ValidationResult where
  valid : Bool
  message : String
  availableShares : ℚ
deriving DecidableEq, Repr

/-- The interpolated rejection message of `validateSellTransaction`. -/
def sellRejectMessage (roundedQuantity availableShares : ℚ) : String :=
  "Cannot sell " ++ toString roundedQuantity ++ " shares. Only "
    ++ toString availableShares ++ " shares available."

/-- `TransactionCalculator.validateSellTransaction`.  The inner
`calculatePosition` call runs over the `filter`ed references into the
caller's array, so an exception it throws propagates (`Except.error`),
and its mutations land in the caller's array (the returned `Store`). -/
def validateSellTransaction (now : String) (symbol : String) (quantity : ℚ)
    (existingTransactions : List Transaction) :
    Except CalcError (ValidationResult × Store) :=
  let idxs := (List.range existingTransactions.length).filter
    fun i => (existingTransactions.getD i default).symbol = symbol
  match calculatePositionAux now existingTransactions idxs with
  | (Except.error e, _) => Except.error e
  | (Except.ok position, store') =>
    let availableShares :=
      jsRound5 (match position with
        | some p => p.totalShares
        | none => 0)
    let roundedQuantity := jsRound5 quantity
    if availableShares < roundedQuantity then
      Except.ok
        ({ valid := false,
           message := sellRejectMessage roundedQuantity availableShares,
           availableShares := availableShares }, store')
    else
      Except.ok
        ({ valid := true, message := "Valid transaction",
           availableShares := availableShares }, store')

/-- The `Position` a result carries, when the call neither threw nor
returned `null`. -/
def posResult (r : Except CalcError (Option Position) × Store) :
    Option Position :=
  match r.1 with
  | Except.ok (some p) => some p
  | _ => none

/-! ### Spec-side characterisations and accounting measures

These definitions formalise the spec's vocabulary (total bought/sold
quantities, "a SELL exceeds the shares held at its point in
chronological processing", the average cost of the remaining lots) in
order to state the behavioural claims; the engine above is the
code-side object they are compared with. -/

/-- Total quantity bought across a transaction list. -/
def buyTotal : List Transaction → ℚ
  | [] => 0
  | t :: rest =>
    (match t.type with
      | TxType.BUY => t.quantity
      | TxType.SELL => 0) + buyTotal rest

/-- Total quantity sold across a transaction list. -/
def sellTotal : List Transaction → ℚ
  | [] => 0
  | t :: rest =>
    (match t.type with
      | TxType.BUY => 0
      | TxType.SELL => t.quantity) + sellTotal rest

/-- Walking the list in order starting from `held` shares, no SELL ever
asks for more than the shares held at its point (the spec's
insufficient-shares condition, independent of the FIFO machinery). -/
def sharesNeverOversold : ℚ → List Transaction → Bool
  | _, [] => true
  | held, t :: rest =>
    match t.type with
    | TxType.BUY => sharesNeverOversold (held + t.quantity) rest
    | TxType.SELL =>
      if held < t.quantity then false
      else sharesNeverOversold (held - t.quantity) rest

/-- The caller's array as the identity-decorated pair list the engine
walks: element `i` of the array at index `i`. -/
def inputPairs (l : List Transaction) : List (Nat × Transaction) :=
  (List.range l.length).map fun i => (i, l.getD i default)

/-- The transaction list in the chronological (stable date-sorted) order
the engine processes it in. -/
def chronological (l : List Transaction) : List Transaction :=
  (sortByDate (inputPairs l)).map Prod.snd

/-- The engine run `calculatePosition` performs on a nonempty list:
its thrown error (if any) and its final accumulator state. -/
def runEngine (l : List Transaction) : Option CalcError × CalcState :=
  processAll (l.getD 0 default).symbol (initState l)
    (sortByDate (inputPairs l))

/-- Total remaining quantity of the open FIFO lots. -/
def lotShares (q : List Lot) : ℚ :=
  (q.map Lot.quantity).sum

/-- Total remaining cost (quantity times price per share) of the open
FIFO lots. -/
def lotCost (q : List Lot) : ℚ :=
  (q.map fun lot => lot.quantity * lot.pricePerShare).sum

/-- Weighted average cost per share of the open FIFO lots. -/
def lotAverage (q : List Lot) : ℚ :=
  if 0 < lotShares q then lotCost q / lotShares q else 0

/-- The engine-state invariant for fee-free, nonnegative-quantity
histories: the share and cost accumulators agree with the open lot
queue, whose lots are nonnegative. -/
def GoodState (st : CalcState) : Prop :=
  st.totalShares = lotShares st.buyQueue ∧
  st.totalInvested = lotCost st.buyQueue ∧
  ∀ lot ∈ st.buyQueue, 0 ≤ lot.quantity

/-- Shares held according to a `calculatePosition` result (`null` means
no transactions, hence zero shares). -/
def positionShares : Option Position → ℚ
  | some p => p.totalShares
  | none => 0

/-! ### Concrete transaction lists used by the scenario claims -/

/-- BUY 5 @ $100 on day 1, BUY 5 @ $120 on day 2, SELL 7 @ $150 on day 3,
each `totalAmount = quantity * pricePerShare`, no fees. -/
def c1txs : List Transaction :=
  [ { id := "1", symbol := "AAPL", type := TxType.BUY, quantity := 5,
      pricePerShare := 100, date := 1, totalAmount := 500 },
    { id := "2", symbol := "AAPL", type := TxType.BUY, quantity := 5,
      pricePerShare := 120, date := 2, totalAmount := 600 },
    { id := "3", symbol := "AAPL", type := TxType.SELL, quantity := 7,
      pricePerShare := 150, date := 3, totalAmount := 1050 } ]

/-- BUY 10 @ $10, BUY 10 @ $20, then SELL 15 @ $25 (total $375). -/
def c2txs : List Transaction :=
  [ { id := "1", symbol := "AAPL", type := TxType.BUY, quantity := 10,
      pricePerShare := 10, date := 1, totalAmount := 100 },
    { id := "2", symbol := "AAPL", type := TxType.BUY, quantity := 10,
      pricePerShare := 20, date := 2, totalAmount := 200 },
    { id := "3", symbol := "AAPL", type := TxType.SELL, quantity := 15,
      pricePerShare := 25, date := 3, totalAmount := 375 } ]

/-- BUY 5 @ $10 on day 1 then SELL 5 @ $20 on day 2: processing the SELL
consumes the BUY lot, writing `quantity := 0` into the caller's BUY
record. -/
def c3txs : List Transaction :=
  [ { id := "1", symbol := "AAPL", type := TxType.BUY, quantity := 5,
      pricePerShare := 10, date := 1, totalAmount := 50 },
    { id := "2", symbol := "AAPL", type := TxType.SELL, quantity := 5,
      pricePerShare := 20, date := 2, totalAmount := 100 } ]

/-- The contents of the caller's array after `calculatePosition c3txs`:
the BUY record's quantity has been zeroed in place. -/
def c3txsMutated : List Transaction :=
  [ { id := "1", symbol := "AAPL", type := TxType.BUY, quantity := 0,
      pricePerShare := 10, date := 1, totalAmount := 50 },
    { id := "2", symbol := "AAPL", type := TxType.SELL, quantity := 5,
      pricePerShare := 20, date := 2, totalAmount := 100 } ]

/-- Same shape as `c3txs`, a fully sold-out history handed to
`validateSellTransaction`. -/
def c4txs : List Transaction :=
  [ { id := "1", symbol := "AAPL", type := TxType.BUY, quantity := 5,
      pricePerShare := 10, date := 1, totalAmount := 50 },
    { id := "2", symbol := "AAPL", type := TxType.SELL, quantity := 5,
      pricePerShare := 20, date := 2, totalAmount := 100 } ]

/-- The caller's array after `validateSellTransaction` on `c4txs`. -/
def c4txsMutated : List Transaction :=
  [ { id := "1", symbol := "AAPL", type := TxType.BUY, quantity := 0,
      pricePerShare := 10, date := 1, totalAmount := 50 },
    { id := "2", symbol := "AAPL", type := TxType.SELL, quantity := 5,
      pricePerShare := 20, date := 2, totalAmount := 100 } ]

/-- History for the C5 counterexample: one BUY of 10 shares. -/
def c5hist : List Transaction :=
  [ { id := "1", symbol := "AAPL", type := TxType.BUY, quantity := 10,
      pricePerShare := 10, date := 1, totalAmount := 100 } ]

/-- Proposed sell quantity 10 + 10⁻⁶: rounds to 10 at 5 decimal places
but exceeds the 10 shares actually held. -/
def c5qty : ℚ := 10 + 1 / 1000000

/-- The SELL transaction the C5 counterexample appends. -/
def c5sell : Transaction :=
  { id := "2", symbol := "AAPL", type := TxType.SELL, quantity := c5qty,
    pricePerShare := 25, date := 2, totalAmount := 250 }

/-- A SELL of 5 of the 10 shares of `c5hist`, dated after it: accepted
by the validator and processed by the engine. -/
def c5okSell : Transaction :=
  { id := "3", symbol := "AAPL", type := TxType.SELL, quantity := 5,
    pricePerShare := 20, date := 2, totalAmount := 100 }

/-- BUY 1 @ $10 with a $1 fee (`totalAmount = 11`), then SELL that
single share: the final SELL sells exactly all shares held. -/
def c7txs : List Transaction :=
  [ { id := "1", symbol := "AAPL", type := TxType.BUY, quantity := 1,
      pricePerShare := 10, date := 1, totalAmount := 11, fees := some 1 },
    { id := "2", symbol := "AAPL", type := TxType.SELL, quantity := 1,
      pricePerShare := 10, date := 2, totalAmount := 10 } ]

/-- The BUY-only front of `c7txs`, used to exhibit the shares held when
its SELL is processed. -/
def c7buyOnly : List Transaction :=
  [ { id := "1", symbol := "AAPL", type := TxType.BUY, quantity := 1,
      pricePerShare := 10, date := 1, totalAmount := 11, fees := some 1 } ]

/-- A fee-free BUY of 1 @ $10. -/
def c8firstBuy : List Transaction :=
  [ { id := "1", symbol := "AAPL", type := TxType.BUY, quantity := 1,
      pricePerShare := 10, date := 1, totalAmount := 10 } ]

/-- The same BUY followed by a second BUY of 1 @ $10 whose `totalAmount`
is $30 ($20 of fees): the average cost moves from $10 away from the $10
purchase price, to $20. -/
def c8feeBuys : List Transaction :=
  [ { id := "1", symbol := "AAPL", type := TxType.BUY, quantity := 1,
      pricePerShare := 10, date := 1, totalAmount := 10 },
    { id := "2", symbol := "AAPL", type := TxType.BUY, quantity := 1,
      pricePerShare := 10, date := 2, totalAmount := 30, fees := some 20 } ]

/-- BUY 10 @ $10 then BUY 10 @ $30, both fee-free: average cost $20. -/
def c8twoBuys : List Transaction :=
  [ { id := "1", symbol := "AAPL", type := TxType.BUY, quantity := 10,
      pricePerShare := 10, date := 1, totalAmount := 100 },
    { id := "2", symbol := "AAPL", type := TxType.BUY, quantity := 10,
      pricePerShare := 30, date := 2, totalAmount := 300 } ]

/-- The same two BUYs followed by SELL 10: FIFO consumes the $10 lot
fully, leaving average cost $30 (not $20). -/
def c8txs : List Transaction :=
  [ { id := "1", symbol := "AAPL", type := TxType.BUY, quantity := 10,
      pricePerShare := 10, date := 1, totalAmount := 100 },
    { id := "2", symbol := "AAPL", type := TxType.BUY, quantity := 10,
      pricePerShare := 30, date := 2, totalAmount := 300 },
    { id := "3", symbol := "AAPL", type := TxType.SELL, quantity := 10,
      pricePerShare := 35, date := 3, totalAmount := 350 } ]

/-- A fee-free SELL of the single share of `c8firstBuy`, dated after
it, used to instantiate the amended sell-everything claim. -/
def c7sellAll : Transaction :=
  { id := "2", symbol := "AAPL", type := TxType.SELL, quantity := 1,
    pricePerShare := 12, date := 2, totalAmount := 12 }

/-- A history whose own SELL 1 precedes any BUY: over-sold in
chronological order, so `calculatePosition` throws on it. -/
def c10txs : List Transaction :=
  [ { id := "1", symbol := "AAPL", type := TxType.SELL, quantity := 1,
      pricePerShare := 10, date := 1, totalAmount := 10 } ]

/-- BUY 2 then SELL 1, used to instantiate the conservation claim. -/
def c9txs : List Transaction :=
  [ { id := "1", symbol := "AAPL", type := TxType.BUY, quantity := 2,
      pricePerShare := 10, date := 1, totalAmount := 20 },
    { id := "2", symbol := "AAPL", type := TxType.SELL, quantity := 1,
      pricePerShare := 15, date := 2, totalAmount := 15 } ]

/-- BUY 1 then SELL 2: oversold, used to instantiate the error cases. -/
def c6badtxs : List Transaction :=
  [ { id := "1", symbol := "AAPL", type := TxType.BUY, quantity := 1,
      pricePerShare := 10, date := 1, totalAmount := 10 },
    { id := "2", symbol := "AAPL", type := TxType.SELL, quantity := 2,
      pricePerShare := 15, date := 2, totalAmount := 30 } ]

/-! ## General lemmas about the engine -/

/-- The cost basis and the remaining queue computed by the FIFO walk do
not depend on the store it writes through to. -/
theorem fifoLoop_store_indep (q : List Lot) :
    ∀ (s cb : ℚ) (store σ : Store),
      (fifoLoop s cb q σ).1 = (fifoLoop s cb q store).1 ∧
      (fifoLoop s cb q σ).2.1 = (fifoLoop s cb q store).2.1 := by
  induction q with
  | nil => intro s cb store σ; simp [fifoLoop]
  | cons lot rest ih =>
    intro s cb store σ
    simp only [fifoLoop]
    split_ifs with h1 h2
    · exact ⟨rfl, rfl⟩
    · exact ih _ _ _ _
    · exact ⟨rfl, rfl⟩

/-- Splitting a processing run at a list append. -/
theorem processAll_append (sym : String) (l₁ l₂ : List (Nat × Transaction)) :
    ∀ st : CalcState,
      processAll sym st (l₁ ++ l₂) =
        match processAll sym st l₁ with
        | (none, st') => processAll sym st' l₂
        | (some e, st') => (some e, st') := by
  induction l₁ with
  | nil => intro st; simp [processAll]
  | cons p rest ih =>
    intro st
    obtain ⟨i, t⟩ := p
    simp only [List.cons_append, processAll]
    cases processTransaction sym st i t with
    | ok st' => exact ih st'
    | error e => rfl

/-- On an error-free run the final `totalShares` is the initial one plus
bought quantities minus sold quantities. -/
theorem processAll_none_shares (sym : String) (l : List (Nat × Transaction)) :
    ∀ st st' : CalcState, processAll sym st l = (none, st') →
      st'.totalShares = st.totalShares
        + buyTotal (l.map Prod.snd) - sellTotal (l.map Prod.snd) := by
  induction l with
  | nil =>
    intro st st' h
    simp only [processAll, Prod.mk.injEq] at h
    rw [← h.2]
    simp [buyTotal, sellTotal]
  | cons p rest ih =>
    intro st st' h
    obtain ⟨i, t⟩ := p
    rcases ht : t.type with _ | _
    · simp only [processAll, processTransaction, ht] at h
      have := ih _ _ h
      simp only [List.map_cons, buyTotal, sellTotal, ht] at *
      rw [this]
      ring
    · simp only [processAll, processTransaction, ht] at h
      split_ifs at h with hlt
      · simp at h
      · have := ih _ _ h
        simp only [List.map_cons, buyTotal, sellTotal, ht] at *
        rw [this]
        ring

/-- A run raises no error exactly when, walking the same sequence, no
SELL exceeds the shares held at its point. -/
theorem processAll_fst_none_iff (sym : String) (l : List (Nat × Transaction)) :
    ∀ st : CalcState, (processAll sym st l).1 = none ↔
      sharesNeverOversold st.totalShares (l.map Prod.snd) = true := by
  induction l with
  | nil => intro st; simp [processAll, sharesNeverOversold]
  | cons p rest ih =>
    intro st
    obtain ⟨i, t⟩ := p
    rcases ht : t.type with _ | _
    · simp only [processAll, processTransaction, ht, List.map_cons,
        sharesNeverOversold]
      exact ih _
    · simp only [processAll, processTransaction, ht, List.map_cons,
        sharesNeverOversold]
      split_ifs with hlt
      · simp
      · exact ih _

/-- Repackage a no-error first component as a full-pair equation. -/
theorem processAll_eq_pair_of_none (sym : String) (l : List (Nat × Transaction))
    (st : CalcState) (h : (processAll sym st l).1 = none) :
    processAll sym st l = (none, (processAll sym st l).2) := by
  rcases hp : processAll sym st l with ⟨o, stf⟩
  rw [hp] at h
  simp only at h
  rw [h]

/-- The error option and every accumulator field of a run are
independent of the store the run writes through to: two runs from
states agreeing on everything but the store stay in step. -/
theorem processAll_store_indep (sym : String) (l : List (Nat × Transaction)) :
    ∀ st₁ st₂ : CalcState,
      st₁.totalShares = st₂.totalShares →
      st₁.totalInvested = st₂.totalInvested →
      st₁.realizedGainLoss = st₂.realizedGainLoss →
      st₁.buyQueue = st₂.buyQueue →
      (processAll sym st₁ l).1 = (processAll sym st₂ l).1 ∧
      (processAll sym st₁ l).2.totalShares
        = (processAll sym st₂ l).2.totalShares ∧
      (processAll sym st₁ l).2.totalInvested
        = (processAll sym st₂ l).2.totalInvested ∧
      (processAll sym st₁ l).2.realizedGainLoss
        = (processAll sym st₂ l).2.realizedGainLoss ∧
      (processAll sym st₁ l).2.buyQueue
        = (processAll sym st₂ l).2.buyQueue := by
  induction l with
  | nil =>
    intro st₁ st₂ h1 h2 h3 h4
    simpa [processAll] using ⟨h1, h2, h3, h4⟩
  | cons p rest ih =>
    intro st₁ st₂ h1 h2 h3 h4
    obtain ⟨i, t⟩ := p
    obtain ⟨a₁, b₁, c₁, q₁, σ₁⟩ := st₁
    obtain ⟨a₂, b₂, c₂, q₂, σ₂⟩ := st₂
    simp only at h1 h2 h3 h4
    subst h1; subst h2; subst h3; subst h4
    rcases ht : t.type with _ | _
    · simp only [processAll, processTransaction, ht]
      exact ih _ _ rfl rfl rfl rfl
    · simp only [processAll, processTransaction, ht]
      split_ifs with hlt
      · simp [processAll]
      · have hf := fifoLoop_store_indep q₁ t.quantity 0 σ₂ σ₁
        simp only
        rw [hf.1, hf.2]
        exact ih _ _ rfl rfl rfl rfl

/-- Accounting contract of the FIFO walk: when the requested quantity is
nonnegative and covered by nonnegative open lots, the cost basis equals
the cost removed from the lot queue, and the removed quantity is exactly
the requested one. -/
theorem fifoLoop_spec (q : List Lot) :
    ∀ (s cb : ℚ) (store : Store),
      0 ≤ s → s ≤ lotShares q → (∀ lot ∈ q, 0 ≤ lot.quantity) →
      (fifoLoop s cb q store).1
          = cb + (lotCost q - lotCost (fifoLoop s cb q store).2.1) ∧
      lotShares (fifoLoop s cb q store).2.1 = lotShares q - s ∧
      ∀ lot ∈ (fifoLoop s cb q store).2.1, 0 ≤ lot.quantity := by
  induction q with
  | nil =>
    intro s cb store hs hle _
    have hs0 : s = 0 := le_antisymm (by simpa [lotShares] using hle) hs
    subst hs0
    simp [fifoLoop, lotShares, lotCost]
  | cons lot rest ih =>
    intro s cb store hs hle hq
    have hlotq : 0 ≤ lot.quantity := hq lot (List.mem_cons_self _ _)
    have hrest : ∀ x ∈ rest, 0 ≤ x.quantity :=
      fun x hx => hq x (List.mem_cons_of_mem _ hx)
    have hshape : lotShares (lot :: rest) = lot.quantity + lotShares rest := by
      simp [lotShares]
    have hcost : lotCost (lot :: rest)
        = lot.quantity * lot.pricePerShare + lotCost rest := by
      simp [lotCost]
    simp only [fifoLoop]
    split_ifs with h0 hz
    · have hs0 : s = 0 := le_antisymm h0 hs
      subst hs0
      refine ⟨by ring, by ring, hq⟩
    · push_neg at h0
      have htake : min s lot.quantity = lot.quantity := by linarith
      have hqs : lot.quantity ≤ s := by
        rcases le_total s lot.quantity with h | h
        · have := min_eq_left h
          rw [htake] at this
          exact le_of_eq this
        · exact h
      rw [htake]
      have h1 : (0:ℚ) ≤ s - lot.quantity := by linarith
      have h2 : s - lot.quantity ≤ lotShares rest := by
        rw [hshape] at hle; linarith
      obtain ⟨ha, hb, hc⟩ :=
        ih (s - lot.quantity) (cb + lot.quantity * lot.pricePerShare)
          (storeSetQty store lot.idx (lot.quantity - lot.quantity)) h1 h2 hrest
      refine ⟨?_, ?_, hc⟩
      · rw [ha, hcost]; ring
      · rw [hb, hshape]; ring
    · have htake : min s lot.quantity = s := by
        rcases le_total s lot.quantity with h | h
        · exact min_eq_left h
        · exact absurd (by rw [min_eq_right h]; ring) hz
      have hsq : s ≤ lot.quantity := by
        rcases le_total s lot.quantity with h | h
        · exact h
        · have := min_eq_right h
          rw [htake] at this
          exact le_of_eq this
      rw [htake]
      refine ⟨?_, ?_, ?_⟩
      · rw [hcost]
        simp only [lotCost, List.map_cons, List.sum_cons]
        ring
      · rw [hshape]
        simp only [lotShares, List.map_cons, List.sum_cons]
        ring
      · intro x hx
        rcases List.mem_cons.mp hx with rfl | hx
        · simpa using sub_nonneg.mpr hsq
        · exact hrest x hx

/-- The initial accumulator state satisfies the lot invariant. -/
theorem initState_good (store : Store) : GoodState (initState store) := by
  refine ⟨by simp [initState, lotShares], by simp [initState, lotCost], ?_⟩
  intro lot h
  simp [initState] at h

/-- Open lot quantities being nonnegative, their total is nonnegative. -/
theorem lotShares_nonneg (q : List Lot) (h : ∀ lot ∈ q, 0 ≤ lot.quantity) :
    0 ≤ lotShares q := by
  refine List.sum_nonneg ?_
  intro x hx
  obtain ⟨lot, hlot, rfl⟩ := List.mem_map.mp hx
  exact h lot hlot

/-- Nonnegative lots totalling zero shares carry zero cost. -/
theorem lotCost_eq_zero (q : List Lot) (h0 : lotShares q = 0)
    (hn : ∀ lot ∈ q, 0 ≤ lot.quantity) : lotCost q = 0 := by
  induction q with
  | nil => simp [lotCost]
  | cons lot rest ih =>
    have h1 : 0 ≤ lot.quantity := hn lot (List.mem_cons_self _ _)
    have h2 : ∀ x ∈ rest, 0 ≤ x.quantity :=
      fun x hx => hn x (List.mem_cons_of_mem _ hx)
    have h3 : 0 ≤ lotShares rest := lotShares_nonneg rest h2
    have h4 : lot.quantity + lotShares rest = 0 := by
      simpa [lotShares] using h0
    have h5 : lot.quantity = 0 := by linarith
    have h6 : lotShares rest = 0 := by linarith
    simp [lotCost, h5]
    simpa [lotCost] using ih h6 h2

/-- One fee-free, nonnegative step preserves the lot invariant. -/
theorem processTransaction_good (sym : String) (st : CalcState) (i : Nat)
    (t : Transaction) (st' : CalcState) (hg : GoodState st)
    (hq : 0 ≤ t.quantity)
    (hfee : t.type = TxType.BUY → t.totalAmount = t.quantity * t.pricePerShare)
    (hok : processTransaction sym st i t = Except.ok st') : GoodState st' := by
  obtain ⟨hg1, hg2, hg3⟩ := hg
  rcases ht : t.type with _ | _
  · simp only [processTransaction, ht] at hok
    injection hok with hok
    subst hok
    refine ⟨?_, ?_, ?_⟩
    · simp [lotShares, hg1]
    · simp [lotCost, hg2, hfee ht]
    · intro lot hlot
      rcases List.mem_append.mp hlot with h | h
      · exact hg3 lot h
      · simp at h
        subst h
        exact hq
  · simp only [processTransaction, ht] at hok
    split_ifs at hok with hlt
    push_neg at hlt
    injection hok with hok
    subst hok
    have hcov : t.quantity ≤ lotShares st.buyQueue := by rw [← hg1]; exact hlt
    obtain ⟨ha, hb, hc⟩ :=
      fifoLoop_spec st.buyQueue t.quantity 0 st.store hq hcov hg3
    refine ⟨?_, ?_, hc⟩
    · simp only
      rw [hb, hg1]
    · simp only
      rw [ha, hg2]
      ring

/-- An error-free, fee-free, nonnegative run preserves the lot invariant. -/
theorem processAll_good (sym : String) (l : List (Nat × Transaction)) :
    ∀ st st' : CalcState, GoodState st →
      (∀ p ∈ l, 0 ≤ p.2.quantity) →
      (∀ p ∈ l, p.2.type = TxType.BUY →
        p.2.totalAmount = p.2.quantity * p.2.pricePerShare) →
      processAll sym st l = (none, st') → GoodState st' := by
  induction l with
  | nil =>
    intro st st' hg _ _ h
    simp only [processAll, Prod.mk.injEq] at h
    rw [← h.2]
    exact hg
  | cons p rest ih =>
    intro st st' hg hq hfee h
    obtain ⟨i, t⟩ := p
    simp only [processAll] at h
    rcases hpt : processTransaction sym st i t with e | st₁
    · rw [hpt] at h
      simp at h
    · rw [hpt] at h
      have hg₁ : GoodState st₁ :=
        processTransaction_good sym st i t st₁ hg
          (hq (i, t) (List.mem_cons_self _ _))
          (hfee (i, t) (List.mem_cons_self _ _)) hpt
      exact ih st₁ st' hg₁
        (fun x hx => hq x (List.mem_cons_of_mem _ hx))
        (fun x hx => hfee x (List.mem_cons_of_mem _ hx)) h

/-! ## Sorting lemmas -/

/-- Forgetting the identity decoration commutes with the stable date
sort (the comparator reads only the transaction value). -/
theorem sortByDate_map_snd (l : List (Nat × Transaction)) :
    (sortByDate l).map Prod.snd = sortTx (l.map Prod.snd) :=
  List.map_insertionSort dateLe dateLeT Prod.snd l (fun _ _ _ _ => Iff.rfl)

/-- Reading every index of a list back in order rebuilds the list. -/
theorem map_getD_range (l : List Transaction) :
    (List.range l.length).map (fun i => l.getD i default) = l := by
  induction l with
  | nil => simp
  | cons t rest ih =>
    rw [List.length_cons, List.range_succ_eq_map, List.map_cons,
      List.map_map]
    simp only [List.getD_cons_zero]
    congr 1

/-- The identity-decorated caller array projects back onto the array. -/
theorem inputPairs_map_snd (l : List Transaction) :
    (inputPairs l).map Prod.snd = l := by
  unfold inputPairs
  rw [List.map_map]
  exact map_getD_range l

/-- The chronological order of a list is its stable date sort. -/
theorem chronological_eq_sortTx (l : List Transaction) :
    chronological l = sortTx l := by
  unfold chronological
  rw [sortByDate_map_snd, inputPairs_map_snd]

/-- The chronological order is a permutation of the caller's order. -/
theorem chronological_perm (l : List Transaction) :
    List.Perm (chronological l) l := by
  rw [chronological_eq_sortTx]
  exact List.perm_insertionSort dateLeT l

/-- `buyTotal` as a sum over a mapped list. -/
theorem buyTotal_eq_sum (l : List Transaction) :
    buyTotal l = (l.map fun t =>
      match t.type with
      | TxType.BUY => t.quantity
      | TxType.SELL => 0).sum := by
  induction l with
  | nil => simp [buyTotal]
  | cons t rest ih => simp [buyTotal, ih]

/-- `sellTotal` as a sum over a mapped list. -/
theorem sellTotal_eq_sum (l : List Transaction) :
    sellTotal l = (l.map fun t =>
      match t.type with
      | TxType.BUY => 0
      | TxType.SELL => t.quantity).sum := by
  induction l with
  | nil => simp [sellTotal]
  | cons t rest ih => simp [sellTotal, ih]

/-- Total bought quantity only depends on the multiset of transactions. -/
theorem buyTotal_perm {l₁ l₂ : List Transaction} (h : List.Perm l₁ l₂) :
    buyTotal l₁ = buyTotal l₂ := by
  rw [buyTotal_eq_sum, buyTotal_eq_sum]
  exact (h.map _).sum_eq

/-- Total sold quantity only depends on the multiset of transactions. -/
theorem sellTotal_perm {l₁ l₂ : List Transaction} (h : List.Perm l₁ l₂) :
    sellTotal l₁ = sellTotal l₂ := by
  rw [sellTotal_eq_sum, sellTotal_eq_sum]
  exact (h.map _).sum_eq

/-- Inserting into a list whose appended last element is
date-largest keeps that element last. -/
theorem orderedInsert_append_last (a x : Nat × Transaction)
    (s : List (Nat × Transaction)) (hax : dateLe a x) :
    List.orderedInsert dateLe a (s ++ [x])
      = List.orderedInsert dateLe a s ++ [x] := by
  induction s with
  | nil => simp [List.orderedInsert, hax]
  | cons b s' ih =>
    simp only [List.cons_append, List.orderedInsert]
    by_cases h : dateLe a b
    · simp [h]
    · simp [h, ih]

/-- Stable-sorting with a date-largest element appended leaves that
element at the end. -/
theorem sortByDate_append_last (l : List (Nat × Transaction))
    (x : Nat × Transaction) (hx : ∀ a ∈ l, dateLe a x) :
    sortByDate (l ++ [x]) = sortByDate l ++ [x] := by
  unfold sortByDate
  induction l with
  | nil => simp [List.insertionSort]
  | cons a l' ih =>
    have hax : dateLe a x := hx a (List.mem_cons_self _ _)
    have h' : ∀ b ∈ l', dateLe b x := fun b hb => hx b (List.mem_cons_of_mem _ hb)
    show List.orderedInsert dateLe a (List.insertionSort dateLe (l' ++ [x]))
      = List.orderedInsert dateLe a (List.insertionSort dateLe l') ++ [x]
    rw [ih h']
    exact orderedInsert_append_last a x _ hax

/-- Appending one element to the caller's array appends its
identity-decorated pair. -/
theorem inputPairs_append_last (l : List Transaction) (x : Transaction) :
    inputPairs (l ++ [x]) = inputPairs l ++ [(l.length, x)] := by
  unfold inputPairs
  have hlen : (l ++ [x]).length = l.length + 1 := by simp
  rw [hlen, List.range_succ, List.map_append]
  congr 1
  · apply List.map_congr_left
    intro i hi
    rw [List.mem_range] at hi
    have := List.getD_append l [x] default i hi
    rw [this]
  · simp only [List.map_cons, List.map_nil]
    have := List.getD_append_right l [x] default l.length le_rfl
    rw [this]
    simp

/-- Members of the identity-decorated array are members of the array. -/
theorem inputPairs_mem_snd {l : List Transaction} {p : Nat × Transaction}
    (h : p ∈ inputPairs l) : p.2 ∈ l := by
  have : p.2 ∈ (inputPairs l).map Prod.snd := List.mem_map_of_mem Prod.snd h
  rwa [inputPairs_map_snd] at this

/-- Members of the date-sorted decorated array are members of the
array. -/
theorem sortByDate_inputPairs_mem_snd {l : List Transaction}
    {p : Nat × Transaction} (h : p ∈ sortByDate (inputPairs l)) : p.2 ∈ l := by
  apply inputPairs_mem_snd
  have hperm : List.Perm (sortByDate (inputPairs l)) (inputPairs l) :=
    List.perm_insertionSort dateLe (inputPairs l)
  exact hperm.mem_iff.mp h

/-! ## Rounding lemmas -/

/-- `Math.round` of an integer is itself. -/
theorem jsRound_intCast (k : ℤ) : jsRound (k : ℚ) = k := by
  unfold jsRound
  rw [Int.floor_int_add]
  norm_num

/-- `x` is a fixed point of 5-decimal rounding exactly when `10⁵ x` is
an integer. -/
theorem jsRound5_eq_self_iff (x : ℚ) :
    jsRound5 x = x ↔ ∃ k : ℤ, x * 100000 = (k : ℚ) := by
  constructor
  · intro h
    refine ⟨⌊x * 100000 + 1 / 2⌋, ?_⟩
    have hx : ((⌊x * 100000 + 1 / 2⌋ : ℤ) : ℚ) / 100000 = x := h
    linarith
  · rintro ⟨k, hk⟩
    unfold jsRound5
    rw [hk, jsRound_intCast]
    rw [← hk]
    field_simp

/-- 5-decimal rounding is monotone. -/
theorem jsRound5_mono {a b : ℚ} (h : a ≤ b) : jsRound5 a ≤ jsRound5 b := by
  unfold jsRound5 jsRound
  have h1 : a * 100000 + 1 / 2 ≤ b * 100000 + 1 / 2 := by linarith
  have h2 := Int.floor_mono h1
  have h3 : ((⌊a * 100000 + 1 / 2⌋ : ℤ) : ℚ) ≤ ((⌊b * 100000 + 1 / 2⌋ : ℤ) : ℚ) := by
    exact_mod_cast h2
  have h100 : (0:ℚ) < 100000 := by norm_num
  exact (div_le_div_iff_of_pos_right h100).mpr h3

/-- Strict inequality of roundings reflects to the unrounded values. -/
theorem lt_of_jsRound5_lt {a b : ℚ} (h : jsRound5 a < jsRound5 b) : a < b :=
  lt_of_not_le fun hba => absurd h (not_lt.mpr (jsRound5_mono hba))

/-- Fixed points of 5-decimal rounding are closed under addition. -/
theorem jsRound5_fix_add {a b : ℚ} (ha : jsRound5 a = a)
    (hb : jsRound5 b = b) : jsRound5 (a + b) = a + b := by
  rw [jsRound5_eq_self_iff] at ha hb ⊢
  obtain ⟨j, hj⟩ := ha
  obtain ⟨k, hk⟩ := hb
  refine ⟨j + k, ?_⟩
  push_cast
  linarith

/-- Fixed points of 5-decimal rounding are closed under subtraction. -/
theorem jsRound5_fix_sub {a b : ℚ} (ha : jsRound5 a = a)
    (hb : jsRound5 b = b) : jsRound5 (a - b) = a - b := by
  rw [jsRound5_eq_self_iff] at ha hb ⊢
  obtain ⟨j, hj⟩ := ha
  obtain ⟨k, hk⟩ := hb
  refine ⟨j - k, ?_⟩
  push_cast
  linarith

/-- Zero is a fixed point of 5-decimal rounding. -/
theorem jsRound5_fix_zero : jsRound5 0 = 0 := by
  rw [jsRound5_eq_self_iff]
  exact ⟨0, by norm_num⟩

/-- Total bought quantity of 5-decimal-exact transactions is
5-decimal-exact. -/
theorem jsRound5_fix_buyTotal (l : List Transaction)
    (h : ∀ t ∈ l, jsRound5 t.quantity = t.quantity) :
    jsRound5 (buyTotal l) = buyTotal l := by
  induction l with
  | nil => simpa [buyTotal] using jsRound5_fix_zero
  | cons t rest ih =>
    have h1 := h t (List.mem_cons_self _ _)
    have h2 : ∀ x ∈ rest, jsRound5 x.quantity = x.quantity :=
      fun x hx => h x (List.mem_cons_of_mem _ hx)
    rcases ht : t.type with _ | _
    · simp only [buyTotal, ht]
      exact jsRound5_fix_add h1 (ih h2)
    · simp only [buyTotal, ht]
      exact jsRound5_fix_add jsRound5_fix_zero (ih h2)

/-- Total sold quantity of 5-decimal-exact transactions is
5-decimal-exact. -/
theorem jsRound5_fix_sellTotal (l : List Transaction)
    (h : ∀ t ∈ l, jsRound5 t.quantity = t.quantity) :
    jsRound5 (sellTotal l) = sellTotal l := by
  induction l with
  | nil => simpa [sellTotal] using jsRound5_fix_zero
  | cons t rest ih =>
    have h1 := h t (List.mem_cons_self _ _)
    have h2 : ∀ x ∈ rest, jsRound5 x.quantity = x.quantity :=
      fun x hx => h x (List.mem_cons_of_mem _ hx)
    rcases ht : t.type with _ | _
    · simp only [sellTotal, ht]
      exact jsRound5_fix_add jsRound5_fix_zero (ih h2)
    · simp only [sellTotal, ht]
      exact jsRound5_fix_add h1 (ih h2)

/-! ## Bridge lemmas for `calculatePosition` -/

/-- An empty transaction list yields `null` and leaves the (empty)
array untouched. -/
theorem calculatePosition_nil (now : String) :
    calculatePosition now [] = (Except.ok none, []) := rfl

/-- `calculatePosition` on a nonempty list is exactly the engine run
`runEngine`, packaged into an error or a `Position`. -/
theorem calculatePosition_cons (now : String) (t : Transaction)
    (l' : List Transaction) :
    calculatePosition now (t :: l') =
      match runEngine (t :: l') with
      | (some e, st) => (Except.error e, st.store)
      | (none, st) =>
        (Except.ok (some
          { symbol := t.symbol,
            totalShares := st.totalShares,
            averageCostPerShare := avgState st,
            totalInvested := st.totalInvested,
            realizedGainLoss := st.realizedGainLoss,
            unrealizedGainLoss := none,
            currentValue := none,
            transactions := (List.range (t :: l').length).map
              fun i => st.store.getD i default,
            lastUpdated := now }), st.store) := by
  unfold calculatePosition calculatePositionAux runEngine inputPairs
  rw [List.length_cons, List.range_succ_eq_map]
  rfl

/-- `calculatePosition` throws exactly when, in chronological order,
some SELL exceeds the shares held at its point. -/
theorem calculatePosition_error_iff (now : String) (l : List Transaction) :
    (∃ e, (calculatePosition now l).1 = Except.error e) ↔
      sharesNeverOversold 0 (chronological l) = false := by
  cases l with
  | nil =>
    rw [calculatePosition_nil]
    constructor
    · rintro ⟨e, he⟩
      simp at he
    · intro h
      simp [chronological, inputPairs, sortByDate, List.insertionSort,
        sharesNeverOversold] at h
  | cons t l' =>
    rw [calculatePosition_cons]
    have hiff := processAll_fst_none_iff ((t :: l').getD 0 default).symbol
      (sortByDate (inputPairs (t :: l'))) (initState (t :: l'))
    rcases hp : runEngine (t :: l') with ⟨o, st⟩
    unfold runEngine at hp
    rw [hp] at hiff
    cases o with
    | none =>
      simp only
      constructor
      · rintro ⟨e, he⟩
        simp at he
      · intro h
        have := hiff.mp rfl
        unfold chronological at h
        simp only [initState] at this
        rw [this] at h
        simp at h
    | some e =>
      simp only
      constructor
      · rintro ⟨e', _⟩
        by_contra hfalse
        have hb : sharesNeverOversold 0 (chronological (t :: l')) = true := by
          cases hval : sharesNeverOversold 0 (chronological (t :: l'))
          · exact absurd hval hfalse
          · rfl
        have : (some e : Option CalcError) = none := by
          apply hiff.mpr
          unfold chronological at hb
          simpa [initState] using hb
        simp at this
      · intro _
        exact ⟨e, rfl⟩

/-! ### C1 -/

/-- C1: on `[BUY 5@$100 day 1, BUY 5@$120 day 2, SELL 7@$150 day 3]`
(each `totalAmount = quantity * pricePerShare`, no fees),
`calculatePosition` returns a `Position` with `totalShares = 3`,
`totalInvested = 360` and `realizedGainLoss = 310`, whatever timestamp
is stamped into `lastUpdated`. -/
theorem c1_fifo_scenario (now : String) :
    (posResult (calculatePosition now c1txs)).map Position.totalShares
      = some 3 ∧
    (posResult (calculatePosition now c1txs)).map Position.totalInvested
      = some 360 ∧
    (posResult (calculatePosition now c1txs)).map Position.realizedGainLoss
      = some 310 := by
  norm_num [posResult, calculatePosition, calculatePositionAux, c1txs,
    sortByDate, dateLe, List.insertionSort, List.orderedInsert,
    processAll, processTransaction, fifoLoop, storeSetQty, initState,
    avgState, min_def, List.range_succ, List.getD]

/-! ### C2 -/

/-- C2 counterexample: on `[BUY 10@$10, BUY 10@$20, SELL 15@$25 ($375)]`
the engine's FIFO cost basis for the 15 sold shares is
`10*$10 + 5*$20 = $200`, not $150, so `realizedGainLoss` is
`$375 - $200 = $175`, not the claimed $225. -/
theorem c2_counterexample :
    (posResult (calculatePosition "t" c2txs)).map Position.realizedGainLoss
      = some 175 ∧
    (posResult (calculatePosition "t" c2txs)).map Position.realizedGainLoss
      ≠ some 225 := by
  norm_num [posResult, calculatePosition, calculatePositionAux, c2txs,
    sortByDate, dateLe, List.insertionSort, List.orderedInsert,
    processAll, processTransaction, fifoLoop, storeSetQty, initState,
    avgState, min_def, List.range_succ, List.getD]

/-- C2 amended: on `[BUY 10@$10, BUY 10@$20, SELL 15@$25 ($375)]`,
`calculatePosition` attributes a FIFO cost basis of $200 to the 15 sold
shares (10 shares from the $10 lot plus 5 shares from the $20 lot), so
`realizedGainLoss = 375 - 200 = 175` and `totalInvested` drops from $300
to $100, with 5 shares remaining. -/
theorem c2_amended (now : String) :
    (posResult (calculatePosition now c2txs)).map Position.realizedGainLoss
      = some 175 ∧
    (posResult (calculatePosition now c2txs)).map Position.totalInvested
      = some 100 ∧
    (posResult (calculatePosition now c2txs)).map Position.totalShares
      = some 5 := by
  norm_num [posResult, calculatePosition, calculatePositionAux, c2txs,
    sortByDate, dateLe, List.insertionSort, List.orderedInsert,
    processAll, processTransaction, fifoLoop, storeSetQty, initState,
    avgState, min_def, List.range_succ, List.getD]

/-! ### C3 -/

/-- C3 (code bug): `calculatePosition` is not idempotent, because the
FIFO walk writes `quantity -= ...` through the shallow copy
`[...transactions]` into the caller's transaction objects.  On
`[BUY 5@$10, SELL 5@$20]` the first call succeeds but zeroes the BUY
record's quantity in the caller's array (and in the returned
`transactions` field), so a second call over the same records throws
insufficient-shares instead of reproducing the first result. -/
theorem c3_mutation_bug :
    (posResult (calculatePosition "t" c3txs)).map Position.totalShares
      = some 0 ∧
    (calculatePosition "t" c3txs).2 = c3txsMutated ∧
    c3txsMutated ≠ c3txs ∧
    (posResult (calculatePosition "t" c3txs)).map Position.transactions
      = some c3txsMutated ∧
    (calculatePosition "t" (calculatePosition "t" c3txs).2).1
      = Except.error (CalcError.insufficientShares "AAPL" 5 0) := by
  norm_num [posResult, calculatePosition, calculatePositionAux, c3txs,
    c3txsMutated, sortByDate, dateLe, List.insertionSort,
    List.orderedInsert, processAll, processTransaction, fifoLoop,
    storeSetQty, initState, avgState, min_def, List.range_succ,
    List.getD]

/-! ### C4 -/

/-- C4 (code bug): `validateSellTransaction` is not a pure read: its
inner `calculatePosition` call runs over `filter`ed references into the
caller's array, so validating against the history
`[BUY 5@$10, SELL 5@$20]` zeroes the BUY record's quantity in the
caller's transaction set (for any proposed quantity; shown at 3). -/
theorem c4_validator_mutates :
    validateSellTransaction "t" "AAPL" 3 c4txs
      = Except.ok
          ({ valid := false, message := sellRejectMessage 3 0,
             availableShares := 0 }, c4txsMutated) ∧
    c4txsMutated ≠ c4txs := by
  norm_num [validateSellTransaction, calculatePositionAux, c4txs,
    c4txsMutated, sortByDate, dateLe, List.insertionSort,
    List.orderedInsert, processAll, processTransaction, fifoLoop,
    storeSetQty, initState, avgState, min_def, List.range_succ,
    List.getD, jsRound5, jsRound]

/-! ## Coverage and validator-filter lemmas -/

/-- When, along the list, sold totals never exceed the start quantity
plus bought totals, no SELL is oversold. -/
theorem sharesNeverOversold_of_cover (l : List Transaction) :
    ∀ s : ℚ, (∀ n, sellTotal (l.take n) ≤ s + buyTotal (l.take n)) →
      sharesNeverOversold s l = true := by
  induction l with
  | nil => intro s _; simp [sharesNeverOversold]
  | cons t rest ih =>
    intro s h
    rcases ht : t.type with _ | _
    · simp only [sharesNeverOversold, ht]
      apply ih
      intro n
      have hn := h (n + 1)
      simp only [List.take_succ_cons, sellTotal, buyTotal, ht] at hn
      linarith
    · simp only [sharesNeverOversold, ht]
      have h1 := h 1
      simp only [List.take_succ_cons, List.take_zero, sellTotal, buyTotal,
        ht] at h1
      have hns : ¬ s < t.quantity := not_lt.mpr (by linarith)
      rw [if_neg hns]
      apply ih
      intro n
      have hn := h (n + 1)
      simp only [List.take_succ_cons, sellTotal, buyTotal, ht] at hn
      linarith

/-- The transaction values behind the validator's `filter`ed index list
are the symbol-filtered transaction values. -/
theorem validatorPairs_map_snd (s : String) (h : List Transaction) :
    (((List.range h.length).filter
        fun i => (h.getD i default).symbol = s).map
      fun i => (i, h.getD i default)).map Prod.snd
      = h.filter fun t => t.symbol = s := by
  rw [List.map_map]
  have : (Prod.snd ∘ fun i => (i, h.getD i default))
      = fun i => h.getD i default := rfl
  rw [this]
  have hcomp : (fun i => decide ((h.getD i default).symbol = s))
      = ((fun t => decide (t.symbol = s)) ∘ fun i => h.getD i default) := rfl
  rw [hcomp]
  rw [← List.filter_map (fun i => h.getD i default) (List.range h.length)]
  rw [map_getD_range]

/-! ### C6 -/

/-- C6: `calculatePosition` returns `null` (`Except.ok none`) on an
empty list; it throws exactly when, at some point of the chronological
(date-sorted) processing order, a SELL's quantity exceeds the shares
held at that point (`sharesNeverOversold` is the spec-side walk of the
chronological order); otherwise it returns a `Position`. -/
theorem c6_error_model (now : String) (l : List Transaction) :
    (l = [] → (calculatePosition now l).1 = Except.ok none) ∧
    ((∃ e, (calculatePosition now l).1 = Except.error e) ↔
      sharesNeverOversold 0 (chronological l) = false) ∧
    (l ≠ [] → sharesNeverOversold 0 (chronological l) = true →
      ∃ p, (calculatePosition now l).1 = Except.ok (some p)) := by
  refine ⟨?_, calculatePosition_error_iff now l, ?_⟩
  · rintro rfl
    rw [calculatePosition_nil]
  · intro hne hok
    cases l with
    | nil => exact absurd rfl hne
    | cons t l' =>
      rw [calculatePosition_cons]
      rcases hp : runEngine (t :: l') with ⟨o, st⟩
      cases o with
      | none => exact ⟨_, rfl⟩
      | some e =>
        exfalso
        have h2 := (calculatePosition_error_iff now (t :: l')).mp
          ⟨e, by rw [calculatePosition_cons, hp]⟩
        rw [h2] at hok
        simp at hok

/-- C6 witness: the empty, an oversold, and a well-covered list. -/
theorem c6_error_model_witness :
    (calculatePosition "t" ([] : List Transaction)).1 = Except.ok none ∧
    (∃ e, (calculatePosition "t" c6badtxs).1 = Except.error e) ∧
    (∃ p, (calculatePosition "t" c1txs).1 = Except.ok (some p)) := by
  refine ⟨(c6_error_model "t" []).1 rfl, ?_, ?_⟩
  · refine (c6_error_model "t" c6badtxs).2.1.mpr ?_
    norm_num [chronological, inputPairs, sortByDate, dateLe,
      List.insertionSort, List.orderedInsert, sharesNeverOversold,
      c6badtxs, List.range_succ, List.getD]
  · refine (c6_error_model "t" c1txs).2.2 (by simp [c1txs]) ?_
    norm_num [chronological, inputPairs, sortByDate, dateLe,
      List.insertionSort, List.orderedInsert, sharesNeverOversold,
      c1txs, List.range_succ, List.getD]

/-! ### C9 -/

/-- C9: if along every prefix of the chronological order the total
bought quantity covers the total sold quantity, `calculatePosition`
succeeds and its `totalShares` is exactly total-bought minus total-sold
(over the whole caller list, in any order), and throughout processing
the running `totalShares` is the running bought-minus-sold difference. -/
theorem c9_conservation (now : String) (l : List Transaction) (hne : l ≠ [])
    (hcov : ∀ n, sellTotal ((chronological l).take n)
      ≤ buyTotal ((chronological l).take n)) :
    (∃ p, (calculatePosition now l).1 = Except.ok (some p) ∧
      p.totalShares = buyTotal l - sellTotal l) ∧
    ∀ n, ∃ st, processAll (l.getD 0 default).symbol (initState l)
        ((sortByDate (inputPairs l)).take n) = (none, st) ∧
      st.totalShares = buyTotal ((chronological l).take n)
        - sellTotal ((chronological l).take n) := by
  have hcovS : sharesNeverOversold 0 (chronological l) = true := by
    apply sharesNeverOversold_of_cover
    intro n
    simpa using hcov n
  constructor
  · cases l with
    | nil => exact absurd rfl hne
    | cons t l' =>
      rw [calculatePosition_cons]
      rcases hp : runEngine (t :: l') with ⟨o, st⟩
      have hiff := processAll_fst_none_iff ((t :: l').getD 0 default).symbol
        (sortByDate (inputPairs (t :: l'))) (initState (t :: l'))
      unfold runEngine at hp
      rw [hp] at hiff
      cases o with
      | some e =>
        exfalso
        have : (some e : Option CalcError) = none := by
          apply hiff.mpr
          unfold chronological at hcovS
          simpa [initState] using hcovS
        simp at this
      | none =>
        refine ⟨_, rfl, ?_⟩
        simp only
        have hsh := processAll_none_shares ((t :: l').getD 0 default).symbol
          (sortByDate (inputPairs (t :: l'))) (initState (t :: l')) st hp
        rw [hsh]
        have hperm := chronological_perm (t :: l')
        unfold chronological at hperm
        rw [buyTotal_perm hperm, sellTotal_perm hperm]
        simp [initState]
  · intro n
    have hnone : (processAll (l.getD 0 default).symbol (initState l)
        ((sortByDate (inputPairs l)).take n)).1 = none := by
      rw [processAll_fst_none_iff]
      have hmap : ((sortByDate (inputPairs l)).take n).map Prod.snd
          = (chronological l).take n := by
        unfold chronological
        rw [List.map_take]
      rw [hmap]
      show sharesNeverOversold (initState l).totalShares
        ((chronological l).take n) = true
      apply sharesNeverOversold_of_cover
      intro m
      rw [List.take_take]
      have := hcov (min m n)
      simpa [initState] using this
    refine ⟨_, processAll_eq_pair_of_none _ _ _ hnone, ?_⟩
    have hsh := processAll_none_shares (l.getD 0 default).symbol
      ((sortByDate (inputPairs l)).take n) (initState l) _
      (processAll_eq_pair_of_none _ _ _ hnone)
    rw [hsh]
    have hmap : ((sortByDate (inputPairs l)).take n).map Prod.snd
        = (chronological l).take n := by
      unfold chronological
      rw [List.map_take]
    rw [hmap]
    simp [initState]

/-- C9 witness: BUY 2 then SELL 1 is prefix-covered; final shares 1. -/
theorem c9_conservation_witness :
    (∃ p, (calculatePosition "t" c9txs).1 = Except.ok (some p) ∧
      p.totalShares = buyTotal c9txs - sellTotal c9txs) ∧
    ∀ n, ∃ st, processAll (c9txs.getD 0 default).symbol (initState c9txs)
        ((sortByDate (inputPairs c9txs)).take n) = (none, st) ∧
      st.totalShares = buyTotal ((chronological c9txs).take n)
        - sellTotal ((chronological c9txs).take n) := by
  apply c9_conservation "t" c9txs (by simp [c9txs])
  intro n
  have hc : chronological c9txs = c9txs := by
    norm_num [chronological, inputPairs, sortByDate, dateLe,
      List.insertionSort, List.orderedInsert, c9txs, List.range_succ,
      List.getD]
  rw [hc]
  rcases n with _ | _ | n
  · simp [sellTotal, buyTotal]
  · norm_num [c9txs, sellTotal, buyTotal, List.take_succ_cons]
  · rw [List.take_of_length_le (by simp [c9txs])]
    norm_num [c9txs, sellTotal, buyTotal]

/-! ### C10 -/

/-- C10: when the symbol's own history is oversold somewhere in
chronological order, `validateSellTransaction` does not return a
validation result: the inner `calculatePosition` exception propagates,
and the same error is produced whatever quantity is proposed. -/
theorem c10_validator_propagates (now s : String) (h : List Transaction)
    (hbad : sharesNeverOversold 0
      (sortTx (h.filter fun t => t.symbol = s)) = false) :
    ∃ e, ∀ q : ℚ, validateSellTransaction now s q h = Except.error e := by
  rcases hcase : (List.range h.length).filter
      (fun i => (h.getD i default).symbol = s) with _ | ⟨i0, rest⟩
  · exfalso
    have hflt : h.filter (fun t => t.symbol = s) = [] := by
      have := validatorPairs_map_snd s h
      rw [hcase] at this
      simpa using this.symm
    rw [hflt] at hbad
    simp [sortTx, List.insertionSort, sharesNeverOversold] at hbad
  · have hsnd : ((( i0 :: rest).map fun i => (i, h.getD i default)).map
        Prod.snd) = h.filter fun t => t.symbol = s := by
      have := validatorPairs_map_snd s h
      rw [hcase] at this
      exact this
    have hproc : ∃ e, (processAll ((h.getD i0 default).symbol) (initState h)
        (sortByDate ((i0 :: rest).map fun i => (i, h.getD i default)))).1
          = some e := by
      rcases hnone : (processAll ((h.getD i0 default).symbol) (initState h)
          (sortByDate ((i0 :: rest).map fun i => (i, h.getD i default)))).1
        with _ | e
      · exfalso
        have hs := (processAll_fst_none_iff ((h.getD i0 default).symbol)
          (sortByDate ((i0 :: rest).map fun i => (i, h.getD i default)))
          (initState h)).mp hnone
        rw [sortByDate_map_snd, hsnd] at hs
        have : (initState h).totalShares = 0 := rfl
        rw [this] at hs
        rw [hs] at hbad
        simp at hbad
      · exact ⟨e, rfl⟩
    obtain ⟨e, he⟩ := hproc
    refine ⟨e, fun q => ?_⟩
    simp only [validateSellTransaction]
    rw [hcase]
    simp only [calculatePositionAux]
    rcases hp : processAll ((h.getD i0 default).symbol) (initState h)
        (sortByDate ((i0 :: rest).map fun i => (i, h.getD i default)))
      with ⟨o, st⟩
    rw [hp] at he
    simp only at he
    rw [he]

/-- C10 witness: a lone SELL history makes the validator throw for any
quantity; shown for quantity 5. -/
theorem c10_validator_propagates_witness :
    ∃ e, validateSellTransaction "t" "AAPL" 5 c10txs = Except.error e := by
  obtain ⟨e, he⟩ := c10_validator_propagates "t" "AAPL" c10txs
    (by norm_num [sortTx, List.insertionSort, List.orderedInsert,
      sharesNeverOversold, c10txs])
  exact ⟨e, he 5⟩

/-! ## Sell-everything lemmas -/

/-- A one-element processing run, unfolded. -/
theorem processAll_single (sym : String) (st : CalcState) (i : Nat)
    (t : Transaction) :
    processAll sym st [(i, t)] =
      match processTransaction sym st i t with
      | Except.ok st' => (none, st')
      | Except.error e => (some e, st) := by
  rcases hstep : processTransaction sym st i t with e | st' <;>
    simp [processAll, hstep]

/-- In an invariant state, everything held, and zero shares, force zero
invested cost and zero average cost. -/
theorem goodState_zero (st : CalcState) (hg : GoodState st)
    (h0 : st.totalShares = 0) : st.totalInvested = 0 ∧ avgState st = 0 := by
  have hls : lotShares st.buyQueue = 0 := by rw [← hg.1]; exact h0
  have hlc := lotCost_eq_zero _ hls hg.2.2
  constructor
  · rw [hg.2.1]; exact hlc
  · unfold avgState
    rw [h0]
    simp

/-- Selling exactly the held amount from an invariant state succeeds and
zeroes the share count, preserving the invariant. -/
theorem processTransaction_sellAll (sym : String) (st : CalcState) (i : Nat)
    (x : Transaction) (hx : x.type = TxType.SELL) (hg : GoodState st)
    (hqx : x.quantity = st.totalShares) :
    ∃ st', processTransaction sym st i x = Except.ok st' ∧ GoodState st' ∧
      st'.totalShares = 0 := by
  have h0q : 0 ≤ x.quantity := by
    rw [hqx, hg.1]
    exact lotShares_nonneg _ hg.2.2
  have hnl : ¬ st.totalShares < x.quantity := by
    rw [hqx]
    exact lt_irrefl _
  rcases hstep : processTransaction sym st i x with e | st'
  · exfalso
    simp only [processTransaction, hx, if_neg hnl] at hstep
    exact Except.noConfusion hstep
  · have hg' := processTransaction_good sym st i x st' hg h0q
      (by intro hb; rw [hx] at hb; simp at hb) hstep
    refine ⟨st', rfl, hg', ?_⟩
    simp only [processTransaction, hx, if_neg hnl] at hstep
    injection hstep with hstep
    rw [← hstep]
    simp only
    rw [hqx]
    ring

/-- Processing a single SELL of everything held from an invariant state:
no error, and the final state has zero shares, invested and average. -/
theorem engine_sellAll (sym : String) (st1 : CalcState) (n : Nat)
    (x : Transaction) (hx : x.type = TxType.SELL) (hg : GoodState st1)
    (hqx : x.quantity = st1.totalShares) :
    ∃ st2, processAll sym st1 [(n, x)] = (none, st2) ∧
      st2.totalShares = 0 ∧ st2.totalInvested = 0 ∧ avgState st2 = 0 := by
  obtain ⟨st2, hstep, hg2, hsh⟩ := processTransaction_sellAll sym st1 n x hx hg hqx
  obtain ⟨hinv, havg⟩ := goodState_zero st2 hg2 hsh
  refine ⟨st2, ?_, hsh, hinv, havg⟩
  rw [processAll_single, hstep]

/-- Reading an `Except.ok` result of `calculatePosition` back as the
engine run it came from. -/
theorem calculatePosition_ok_cons (now : String) (t : Transaction)
    (l' : List Transaction) (r : Option Position)
    (h : (calculatePosition now (t :: l')).1 = Except.ok r) :
    ∃ st, runEngine (t :: l') = (none, st) ∧
      positionShares r = st.totalShares := by
  rw [calculatePosition_cons] at h
  rcases hp : runEngine (t :: l') with ⟨o, st⟩
  rw [hp] at h
  cases o with
  | none =>
    refine ⟨st, rfl, ?_⟩
    simp only at h
    injection h with h
    rw [← h]
    rfl
  | some e => simp at h

/-- Decomposing the engine run on a history with a date-last element
appended: the history segment runs first, then the appended element. -/
theorem runEngine_append_of_dates (t : Transaction) (l' : List Transaction)
    (x : Transaction) (hd : ∀ a ∈ t :: l', a.date ≤ x.date) :
    runEngine (t :: (l' ++ [x]))
      = match processAll t.symbol (initState (t :: (l' ++ [x])))
            (sortByDate (inputPairs (t :: l'))) with
        | (none, st1) => processAll t.symbol st1 [((t :: l').length, x)]
        | (some e, st1) => (some e, st1) := by
  unfold runEngine
  have hpairs : inputPairs (t :: (l' ++ [x]))
      = inputPairs (t :: l') ++ [((t :: l').length, x)] :=
    inputPairs_append_last (t :: l') x
  rw [hpairs]
  rw [sortByDate_append_last]
  · rw [processAll_append]
    rfl
  · intro a ha
    exact hd a.2 (inputPairs_mem_snd ha)

/-! ### C7 -/

/-- C7 counterexample: with a $1 buy-side fee
(`BUY 1@$10, totalAmount 11` then `SELL 1@$10`), the final SELL sells
exactly the 1 share held (shown by the prefix run), the run succeeds
with `totalShares = 0` and `averageCostPerShare = 0`, but
`totalInvested` ends at the residual fee $1, not $0. -/
theorem c7_counterexample :
    (posResult (calculatePosition "t" c7buyOnly)).map Position.totalShares
      = some 1 ∧
    (posResult (calculatePosition "t" c7txs)).map Position.totalShares
      = some 0 ∧
    (posResult (calculatePosition "t" c7txs)).map Position.averageCostPerShare
      = some 0 ∧
    (posResult (calculatePosition "t" c7txs)).map Position.totalInvested
      = some 1 ∧
    (posResult (calculatePosition "t" c7txs)).map Position.totalInvested
      ≠ some 0 := by
  norm_num [posResult, calculatePosition, calculatePositionAux, c7txs,
    c7buyOnly, sortByDate, dateLe, List.insertionSort, List.orderedInsert,
    processAll, processTransaction, fifoLoop, storeSetQty, initState,
    avgState, min_def, List.range_succ, List.getD]

/-- C7 amended: for fee-free (`totalAmount = quantity * pricePerShare`
on BUYs), nonnegative-quantity histories whose dates do not exceed the
final SELL's date, if the history itself processes without error and the
final SELL sells exactly the shares it leaves held, `calculatePosition`
on the appended list succeeds with `totalShares = 0`,
`averageCostPerShare = 0` and `totalInvested = 0`.  (The counterexample
shows the `totalInvested = 0` part of the original claim fails once
buy-side fees make `totalAmount` exceed `quantity * pricePerShare`.) -/
theorem c7_amended (now : String) (l0 : List Transaction) (x : Transaction)
    (hdate : ∀ t ∈ l0, t.date ≤ x.date)
    (hq : ∀ t ∈ l0, 0 ≤ t.quantity)
    (hfee : ∀ t ∈ l0, t.type = TxType.BUY →
      t.totalAmount = t.quantity * t.pricePerShare)
    (hx : x.type = TxType.SELL)
    (r0 : Option Position)
    (h0 : (calculatePosition now l0).1 = Except.ok r0)
    (hsell : x.quantity = positionShares r0) :
    ∃ p, (calculatePosition now (l0 ++ [x])).1 = Except.ok (some p) ∧
      p.totalShares = 0 ∧ p.averageCostPerShare = 0 ∧
      p.totalInvested = 0 := by
  cases l0 with
  | nil =>
    have hr0 : r0 = none := by
      rw [calculatePosition_nil] at h0
      injection h0 with h0
      exact h0.symm
    have hq0 : x.quantity = 0 := by
      rw [hr0] at hsell
      simpa [positionShares] using hsell
    rw [List.nil_append]
    rw [calculatePosition_cons]
    have hps : sortByDate (inputPairs [x]) = [(0, x)] := rfl
    obtain ⟨st2, hrun, h1, h2, h3⟩ :=
      engine_sellAll ([x].getD 0 default).symbol (initState [x]) 0 x hx
        (initState_good _) (by rw [hq0]; rfl)
    have hre : runEngine [x] = (none, st2) := by
      unfold runEngine
      rw [hps]
      exact hrun
    rw [hre]
    exact ⟨_, rfl, h1, h3, h2⟩
  | cons t l0' =>
    obtain ⟨st0, hre0, hshape⟩ := calculatePosition_ok_cons now t l0' r0 h0
    unfold runEngine at hre0
    simp only [List.getD_cons_zero] at hre0
    have hindep := processAll_store_indep t.symbol
      (sortByDate (inputPairs (t :: l0')))
      (initState (t :: (l0' ++ [x]))) (initState (t :: l0')) rfl rfl rfl rfl
    have h1 : (processAll t.symbol (initState (t :: (l0' ++ [x])))
        (sortByDate (inputPairs (t :: l0')))).1 = none := by
      rw [hindep.1, hre0]
    have hpairL := processAll_eq_pair_of_none t.symbol
      (sortByDate (inputPairs (t :: l0')))
      (initState (t :: (l0' ++ [x]))) h1
    have hshL : (processAll t.symbol (initState (t :: (l0' ++ [x])))
        (sortByDate (inputPairs (t :: l0')))).2.totalShares
          = st0.totalShares := by
      have := hindep.2.1
      rw [hre0] at this
      exact this
    have hgL : GoodState (processAll t.symbol (initState (t :: (l0' ++ [x])))
        (sortByDate (inputPairs (t :: l0')))).2 := by
      apply processAll_good t.symbol (sortByDate (inputPairs (t :: l0')))
        (initState (t :: (l0' ++ [x]))) _ (initState_good _) ?_ ?_ hpairL
      · intro p hp
        exact hq p.2 (sortByDate_inputPairs_mem_snd hp)
      · intro p hp
        exact hfee p.2 (sortByDate_inputPairs_mem_snd hp)
    obtain ⟨st2, hrun2, hA, hB, hC⟩ :=
      engine_sellAll t.symbol _ (t :: l0').length x hx hgL
        (by rw [hsell, hshape, ← hshL])
    have hreL : runEngine (t :: (l0' ++ [x])) = (none, st2) := by
      rw [runEngine_append_of_dates t l0' x hdate]
      rw [hpairL]
      exact hrun2
    rw [show (t :: l0') ++ [x] = t :: (l0' ++ [x]) from rfl]
    rw [calculatePosition_cons]
    rw [hreL]
    exact ⟨_, rfl, hA, hC, hB⟩

/-- C7 amended witness: fee-free BUY 1 @ $10 then SELL the single
share. -/
theorem c7_amended_witness :
    ∃ p, (calculatePosition "t" (c8firstBuy ++ [c7sellAll])).1
        = Except.ok (some p) ∧
      p.totalShares = 0 ∧ p.averageCostPerShare = 0 ∧
      p.totalInvested = 0 := by
  apply c7_amended "t" c8firstBuy c7sellAll
  · intro t ht
    simp [c8firstBuy, c7sellAll] at ht ⊢
    rw [ht]
    norm_num
  · intro t ht
    simp [c8firstBuy] at ht
    rw [ht]
    norm_num
  · intro t ht
    simp [c8firstBuy] at ht
    intro
    rw [ht]
    norm_num
  · rfl
  · show (calculatePosition "t" c8firstBuy).1 = Except.ok (some
      { symbol := "AAPL", totalShares := 1, averageCostPerShare := 10,
        totalInvested := 10, realizedGainLoss := 0,
        unrealizedGainLoss := none, currentValue := none,
        transactions := c8firstBuy, lastUpdated := "t" })
    norm_num [calculatePosition, calculatePositionAux, c8firstBuy,
      sortByDate, dateLe, List.insertionSort, List.orderedInsert,
      processAll, processTransaction, fifoLoop, storeSetQty, initState,
      avgState, min_def, List.range_succ, List.getD]
  · show c7sellAll.quantity = positionShares (some
      { symbol := "AAPL", totalShares := 1, averageCostPerShare := 10,
        totalInvested := 10, realizedGainLoss := 0,
        unrealizedGainLoss := none, currentValue := none,
        transactions := c8firstBuy, lastUpdated := "t" })
    rfl

/-! ## Weighted-average lemmas -/

/-- Adding `q ≥ 0` shares at price `p` moves the weighted average cost
(0 when no shares) into the closed interval between the old average and
`p`. -/
theorem avg_between (S C q p : ℚ) (hS : 0 ≤ S) (hq : 0 ≤ q)
    (hC0 : S = 0 → C = 0) :
    min (if 0 < S then C / S else 0) p
      ≤ (if 0 < S + q then (C + q * p) / (S + q) else 0) ∧
    (if 0 < S + q then (C + q * p) / (S + q) else 0)
      ≤ max (if 0 < S then C / S else 0) p := by
  rcases eq_or_lt_of_le hS with hS0 | hSpos
  · have hC : C = 0 := hC0 hS0.symm
    subst hC
    rw [← hS0]
    rcases eq_or_lt_of_le hq with hq0 | hqpos
    · rw [← hq0]
      norm_num
    · rw [if_neg (lt_irrefl 0), if_pos (by linarith : (0:ℚ) < 0 + q)]
      have hp : (0 + q * p) / (0 + q) = p := by
        rw [zero_add, zero_add]
        field_simp
      rw [hp]
      exact ⟨min_le_right _ _, le_max_right _ _⟩
  · rw [if_pos hSpos, if_pos (by linarith : 0 < S + q)]
    rcases le_total (C / S) p with hcp | hcp
    · rw [min_eq_left hcp, max_eq_right hcp]
      have hCpS : C ≤ p * S := by
        rw [div_le_iff₀ hSpos] at hcp
        linarith
      constructor
      · rw [div_le_div_iff₀ hSpos (by linarith : 0 < S + q)]
        nlinarith [mul_nonneg hq (sub_nonneg.mpr hCpS)]
      · rw [div_le_iff₀ (by linarith : 0 < S + q)]
        nlinarith
    · rw [min_eq_right hcp, max_eq_left hcp]
      have hCpS : p * S ≤ C := by
        rw [le_div_iff₀ hSpos] at hcp
        linarith
      constructor
      · rw [le_div_iff₀ (by linarith : 0 < S + q)]
        nlinarith
      · rw [div_le_div_iff₀ (by linarith : 0 < S + q) hSpos]
        nlinarith [mul_nonneg hq (sub_nonneg.mpr hCpS)]

/-! ### C8 -/

/-- C8 counterexample.  First input: after a fee-free BUY 1 @ $10 the
average is $10, the very price of the next BUY 1 @ $10; but that second
BUY carries a $20 fee (`totalAmount = 30`), so the average moves from
$10 away to $20 — it does not move toward the $10 purchase price.
Second input: BUY 10 @ $10, BUY 10 @ $30 has average $20, and the
subsequent SELL 10 changes the average to $30 — it is not unchanged. -/
theorem c8_counterexample :
    ((posResult (calculatePosition "t" c8firstBuy)).map
        Position.averageCostPerShare = some 10 ∧
      (posResult (calculatePosition "t" c8feeBuys)).map
        Position.averageCostPerShare = some 20 ∧
      (c8feeBuys.getD 1 default).pricePerShare = 10 ∧
      (20 : ℚ) ≠ 10) ∧
    ((posResult (calculatePosition "t" c8twoBuys)).map
        Position.averageCostPerShare = some 20 ∧
      (posResult (calculatePosition "t" c8txs)).map
        Position.averageCostPerShare = some 30 ∧
      (30 : ℚ) ≠ 20) := by
  norm_num [posResult, calculatePosition, calculatePositionAux,
    c8firstBuy, c8feeBuys, c8twoBuys, c8txs, sortByDate, dateLe,
    List.insertionSort, List.orderedInsert, processAll,
    processTransaction, fifoLoop, storeSetQty, initState, avgState,
    min_def, List.range_succ, List.getD]

/-- C8 amended.  On `BUY 10@$10, BUY 10@$30, SELL 10` the final average
cost is exactly $30.  In general, along the engine's processing of
fee-free, nonnegative quantities from an invariant state: a BUY moves
`averageCostPerShare` into the interval between the previous average
and its purchase price, and after a SELL the average equals the
weighted average cost of the remaining FIFO lots (which the
counterexample shows need not equal the average before the SELL). -/
theorem c8_amended :
    (posResult (calculatePosition "t" c8txs)).map
        Position.averageCostPerShare = some 30 ∧
    ∀ (sym : String) (st : CalcState) (i : Nat) (t : Transaction)
      (st' : CalcState), GoodState st → 0 ≤ t.quantity →
      (t.type = TxType.BUY → t.totalAmount = t.quantity * t.pricePerShare) →
      processTransaction sym st i t = Except.ok st' →
      (t.type = TxType.BUY →
        min (avgState st) t.pricePerShare ≤ avgState st' ∧
        avgState st' ≤ max (avgState st) t.pricePerShare) ∧
      (t.type = TxType.SELL → avgState st' = lotAverage st'.buyQueue) := by
  constructor
  · norm_num [posResult, calculatePosition, calculatePositionAux, c8txs,
      sortByDate, dateLe, List.insertionSort, List.orderedInsert,
      processAll, processTransaction, fifoLoop, storeSetQty, initState,
      avgState, min_def, List.range_succ, List.getD]
  · intro sym st i t st' hg hq hfee hok
    constructor
    · intro ht
      simp only [processTransaction, ht] at hok
      injection hok with hok
      subst hok
      have hS0 : st.totalShares = 0 → st.totalInvested = 0 := fun h =>
        (goodState_zero st hg h).1
      have hSn : 0 ≤ st.totalShares := by
        rw [hg.1]
        exact lotShares_nonneg _ hg.2.2
      have hb := avg_between st.totalShares st.totalInvested t.quantity
        t.pricePerShare hSn hq hS0
      unfold avgState
      simp only
      rw [hfee ht]
      exact hb
    · intro ht
      have hg' := processTransaction_good sym st i t st' hg hq hfee hok
      unfold avgState lotAverage
      rw [hg'.1, hg'.2.1]

/-- C8 amended witness: one fee-free BUY 1 @ $10 processed from the
empty initial state moves the average between 0 and 10. -/
theorem c8_amended_witness :
    min (avgState (initState ([] : Store))) (10 : ℚ)
      ≤ avgState
          { totalShares := (0 : ℚ) + 1, totalInvested := (0 : ℚ) + 10,
            realizedGainLoss := 0,
            buyQueue := ([] : List Lot) ++ [(⟨0, 1, 10⟩ : Lot)],
            store := ([] : Store) } ∧
    avgState
        { totalShares := (0 : ℚ) + 1, totalInvested := (0 : ℚ) + 10,
          realizedGainLoss := 0,
          buyQueue := ([] : List Lot) ++ [(⟨0, 1, 10⟩ : Lot)],
          store := ([] : Store) }
      ≤ max (avgState (initState ([] : Store))) (10 : ℚ) := by
  have h := (c8_amended.2 "AAPL" (initState []) 0
    { id := "w", symbol := "AAPL", type := TxType.BUY, quantity := 1,
      pricePerShare := 10, date := 1, totalAmount := 10 } _
    (initState_good []) (by norm_num) (fun _ => by norm_num) rfl).1 rfl
  exact h

/-! ## Validator-agreement lemmas -/

/-- The final share count of an error-free engine run is total bought
minus total sold (over the caller's list, in any order). -/
theorem runEngine_none_shares (l : List Transaction) (st : CalcState)
    (h : runEngine l = (none, st)) :
    st.totalShares = buyTotal l - sellTotal l := by
  unfold runEngine at h
  have hs := processAll_none_shares (l.getD 0 default).symbol
    (sortByDate (inputPairs l)) (initState l) st h
  rw [hs]
  have hperm := chronological_perm l
  unfold chronological at hperm
  rw [buyTotal_perm hperm, sellTotal_perm hperm]
  simp [initState]

/-- With a single-symbol history, the validator's index filter keeps
every index. -/
theorem validator_filter_all (s : String) (h : List Transaction)
    (hsym : ∀ t ∈ h, t.symbol = s) :
    (List.range h.length).filter
        (fun i => (h.getD i default).symbol = s)
      = List.range h.length := by
  apply List.filter_eq_self.mpr
  intro i hi
  rw [List.mem_range] at hi
  have hmem : h.getD i default ∈ h := by
    rw [List.getD_eq_getElem h default hi]
    exact List.getElem_mem hi
  simpa using hsym _ hmem

/-! ### C5 -/

/-- C5 counterexample: against a history holding exactly 10 shares, a
proposed sell of `10 + 10⁻⁶` rounds to 10 at 5 decimal places, so
`validateSellTransaction` answers `valid = true`; but the engine,
comparing unrounded values, throws insufficient-shares on the appended
SELL.  The validator therefore does not reject exactly the sells the
engine rejects. -/
theorem c5_counterexample :
    ((validateSellTransaction "t" "AAPL" c5qty c5hist).toOption.map
      fun r => r.1.valid) = some true ∧
    (calculatePosition "t" (c5hist ++ [c5sell])).1
      = Except.error (CalcError.insufficientShares "AAPL" c5qty 10) := by
  norm_num [validateSellTransaction, calculatePosition,
    calculatePositionAux, c5hist, c5sell, c5qty, sortByDate, dateLe,
    List.insertionSort, List.orderedInsert, processAll,
    processTransaction, fifoLoop, storeSetQty, initState, avgState,
    min_def, List.range_succ, List.getD, jsRound5, jsRound,
    Except.toOption]

/-- C5 amended: over a single-symbol history whose quantities are exact
at 5 decimal places, and for a proposed quantity exact at 5 decimal
places, the validator agrees exactly with the engine: it answers
`valid = true` precisely when the engine processes the appended SELL
(dated no earlier than the history) successfully, and `valid = false`
precisely when the engine throws.  (The counterexample shows exactness
fails for quantities finer than 5 decimal places, where the validator's
rounding accepts sells the engine rejects.) -/
theorem c5_amended (now now2 s : String) (q : ℚ) (x : Transaction)
    (h : List Transaction)
    (hsym : ∀ t ∈ h, t.symbol = s)
    (hdate : ∀ t ∈ h, t.date ≤ x.date)
    (hx : x.type = TxType.SELL) (hxq : x.quantity = q)
    (hq5 : jsRound5 q = q)
    (hfp : ∀ t ∈ h, jsRound5 t.quantity = t.quantity)
    (vr : ValidationResult) (st' : Store)
    (hok : validateSellTransaction now s q h = Except.ok (vr, st')) :
    (vr.valid = true ↔
      ∃ p, (calculatePosition now2 (h ++ [x])).1 = Except.ok (some p)) ∧
    (vr.valid = false ↔
      ∃ e, (calculatePosition now2 (h ++ [x])).1 = Except.error e) := by
  cases h with
  | nil =>
    simp only [validateSellTransaction, calculatePositionAux,
      List.length_nil, List.range_zero, List.filter_nil] at hok
    rw [jsRound5_fix_zero, hq5] at hok
    rw [List.nil_append]
    have hps : sortByDate (inputPairs [x]) = [(0, x)] := rfl
    have hsh0 : (initState [x]).totalShares = 0 := rfl
    rw [calculatePosition_cons]
    split_ifs at hok with hc
    · injection hok with hok
      injection hok with hok1 hok2
      subst hok1
      have hrun : ∃ eE stE, runEngine [x] = (some eE, stE) := by
        unfold runEngine
        rw [hps, processAll_single]
        simp only [processTransaction, hx]
        rw [if_pos (by rw [hxq, hsh0]; exact hc)]
        exact ⟨_, _, rfl⟩
      obtain ⟨eE, stE, hrun⟩ := hrun
      rw [hrun]
      constructor <;> simp
    · injection hok with hok
      injection hok with hok1 hok2
      subst hok1
      have hrun : ∃ st2, runEngine [x] = (none, st2) := by
        unfold runEngine
        rw [hps, processAll_single]
        simp only [processTransaction, hx]
        rw [if_neg (by rw [hxq, hsh0]; exact fun hlt => hc hlt)]
        exact ⟨_, rfl⟩
      obtain ⟨st2, hrun⟩ := hrun
      rw [hrun]
      constructor <;> simp
  | cons t h' =>
    simp only [validateSellTransaction] at hok
    rw [validator_filter_all s (t :: h') hsym] at hok
    rw [show calculatePositionAux now (t :: h')
          (List.range (t :: h').length)
        = calculatePosition now (t :: h') from rfl] at hok
    rw [calculatePosition_cons] at hok
    rcases hre : runEngine (t :: h') with ⟨o, st0⟩
    rw [hre] at hok
    cases o with
    | some e => simp at hok
    | none =>
      simp only at hok
      have hfix : jsRound5 st0.totalShares = st0.totalShares := by
        rw [runEngine_none_shares (t :: h') st0 hre]
        exact jsRound5_fix_sub (jsRound5_fix_buyTotal _ hfp)
          (jsRound5_fix_sellTotal _ hfp)
      rw [hfix, hq5] at hok
      -- decompose the appended engine run
      unfold runEngine at hre
      simp only [List.getD_cons_zero] at hre
      have hindep := processAll_store_indep t.symbol
        (sortByDate (inputPairs (t :: h')))
        (initState (t :: (h' ++ [x]))) (initState (t :: h')) rfl rfl rfl rfl
      have hseg1 : (processAll t.symbol (initState (t :: (h' ++ [x])))
          (sortByDate (inputPairs (t :: h')))).1 = none := by
        rw [hindep.1, hre]
      have hpairL := processAll_eq_pair_of_none t.symbol
        (sortByDate (inputPairs (t :: h')))
        (initState (t :: (h' ++ [x]))) hseg1
      have hshL : (processAll t.symbol (initState (t :: (h' ++ [x])))
          (sortByDate (inputPairs (t :: h')))).2.totalShares
            = st0.totalShares := by
        have := hindep.2.1
        rw [hre] at this
        exact this
      rw [show (t :: h') ++ [x] = t :: (h' ++ [x]) from rfl]
      rw [calculatePosition_cons]
      split_ifs at hok with hc
      · injection hok with hok
        injection hok with hok1 hok2
        subst hok1
        have hrunL : ∃ eE stE, runEngine (t :: (h' ++ [x]))
            = (some eE, stE) := by
          rw [runEngine_append_of_dates t h' x hdate, hpairL]
          dsimp only
          rw [processAll_single]
          simp only [processTransaction, hx]
          rw [if_pos (by rw [hxq, hshL]; exact hc)]
          exact ⟨_, _, rfl⟩
        obtain ⟨eE, stE, hrunL⟩ := hrunL
        rw [hrunL]
        constructor <;> simp
      · injection hok with hok
        injection hok with hok1 hok2
        subst hok1
        have hstep : ∃ st2, processAll t.symbol
            (processAll t.symbol (initState (t :: (h' ++ [x])))
              (sortByDate (inputPairs (t :: h')))).2
            [((t :: h').length, x)] = (none, st2) := by
          rw [processAll_single]
          simp only [processTransaction, hx]
          rw [if_neg (by rw [hxq, hshL]; exact fun hlt => hc hlt)]
          exact ⟨_, rfl⟩
        obtain ⟨st2, hstep⟩ := hstep
        have hrunL : runEngine (t :: (h' ++ [x])) = (none, st2) := by
          rw [runEngine_append_of_dates t h' x hdate, hpairL]
          exact hstep
        rw [hrunL]
        constructor <;> simp

/-- C5 amended witness: SELL 5 against a 10-share history is accepted
by the validator and processed by the engine. -/
theorem c5_amended_witness :
    (({ valid := true, message := "Valid transaction",
        availableShares := 10 } : ValidationResult).valid = true ↔
      ∃ p, (calculatePosition "u" (c5hist ++ [c5okSell])).1
        = Except.ok (some p)) ∧
    (({ valid := true, message := "Valid transaction",
        availableShares := 10 } : ValidationResult).valid = false ↔
      ∃ e, (calculatePosition "u" (c5hist ++ [c5okSell])).1
        = Except.error e) := by
  apply c5_amended "t" "u" "AAPL" 5 c5okSell c5hist
  · intro t ht
    simp [c5hist] at ht
    rw [ht]
  · intro t ht
    simp [c5hist] at ht
    rw [ht, c5okSell]
    norm_num
  · rfl
  · rfl
  · rw [jsRound5_eq_self_iff]
    exact ⟨500000, by norm_num⟩
  · intro t ht
    simp [c5hist] at ht
    rw [ht]
    rw [jsRound5_eq_self_iff]
    exact ⟨1000000, by norm_num⟩
  · show validateSellTransaction "t" "AAPL" 5 c5hist
      = Except.ok (({ valid := true,
                      message := "Valid transaction",
                      availableShares := 10 } : ValidationResult), c5hist)
    norm_num [validateSellTransaction, calculatePositionAux, c5hist,
      sortByDate, dateLe, List.insertionSort, List.orderedInsert,
      processAll, processTransaction, fifoLoop, storeSetQty, initState,
      avgState, min_def, List.range_succ, List.getD, jsRound5, jsRound]

end InvestmentTracker
